import Mathlib

/-!
Verification of the raft consensus module: a shallow embedding, in Lean 4, of the log and consensus-state operations of a
Raft implementation written in Go, together with theorems checking the
natural-language specification of the module against the code.

The embedding covers three parts of the source:

* `memoryLog` — the in-memory log backend (`log.go`): `Get`, `Match`,
  `last`, `popAfter`, `append`, `AppendAt`, `RangeGet`.  Go `uint64` values
  are embedded as `Nat`; the one place where `uint64` wrap-around affects
  behaviour (`RangeGet` with `i = 0`) is analysed in the doc comment of
  `memoryLog.RangeGet`.
* `leader` — the Leader-side replication logic (`leader.go`): the entry
  construction of `Commit`, the `nextIndex`/`matchIndex` updates of
  `callAppendEntriesWithAll`, and `calcCommitIndex`.  Go `int` values are
  embedded as `Int` (64-bit overflow is irrelevant at the magnitudes
  involved, so no modular reduction is applied).
* `raft` — node-level operations (`raft.go`): `syncLeaderCommit`,
  `reactToRPCArgs`, `ToFollower` and the `ToLeader` per-peer initialisation.

Mutexes, channels, timers and RPC transport are concurrency plumbing and are
not part of the embedded state; each embedded function is the pure
state-transformation performed by the corresponding Go function.  The
`AppendTime` field of log entries (wall-clock time, informational only) is
omitted.
-/

namespace memoryLog

/-- A raft log entry as stored by the in-memory log backend (`log.go`):
`Index` (1-based position), `Term`, and the opaque `Command` payload
(embedded as a string).  The `Type` and `AppendTime` fields of the source
are never read by the operations under study and are omitted. -/
structure LogEntry where
  Index : Nat
  Term : Nat
  Command : String
deriving DecidableEq

/-- Embeds `memoryLog.Get` (`log.go`): the term of the entry stored at `index`.
The Go code returns `0` for `index = 0` and for any index beyond the queue;
otherwise it reads `queue[index-1].Term`. -/
def Get (queue : List LogEntry) (index : Nat) : Nat :=
  if index = 0 then 0
  else
    match queue.get? (index - 1) with
    | some e => e.Term
    | none => 0

/-- Embeds `memoryLog.Match` (`log.go`): `term == Get(index)`. -/
def Match (queue : List LogEntry) (index term : Nat) : Bool :=
  term == Get queue index

/-- Embeds `memoryLog.last` (`log.go`): index and term of the final entry,
`(0, 0)` when the queue is empty. -/
def last (queue : List LogEntry) : Nat × Nat :=
  match queue.getLast? with
  | none => (0, 0)
  | some e => (e.Index, e.Term)

/-- Embeds `memoryLog.popAfter` (`log.go`): keep the first `i` entries.  The Go
code returns the queue unchanged when `i == len(queue)`, an error when
`i > len(queue)` (embedded as `none`), and otherwise truncates to
`queue[:i]`. -/
def popAfter (queue : List LogEntry) (i : Nat) : Option (List LogEntry) :=
  if i = queue.length then some queue
  else if i > queue.length then none
  else some (queue.take i)

/-- The index-reassignment loop of `memoryLog.append` (`log.go`):
`entries[i].Index = start + i + 1`.  The entry at offset `k` from the head
receives index `start + k + 1`; every caller-supplied `Index` value is
overwritten. -/
def reassign (start : Nat) : List LogEntry → List LogEntry
  | [] => []
  | e :: rest => { e with Index := start + 1 } :: reassign (start + 1) rest

/-- Embeds `memoryLog.append` (`log.go`): read `start` as the index of the last
entry (`last`), reassign the indices of the new entries contiguously after
`start`, and concatenate.  The error path of the Go code is dead
(`memoryLog.last` never fails). -/
def append (queue : List LogEntry) (entries : List LogEntry) : List LogEntry :=
  queue ++ reassign (last queue).1 entries

/-- Embeds `memoryLog.AppendAt` (`log.go`): `popAfter prevIndex` then `append`.
`none` embeds the error return, in which case the Go queue is left
unchanged. -/
def AppendAt (queue : List LogEntry) (prevIndex : Nat) (entries : List LogEntry) :
    Option (List LogEntry) :=
  (popAfter queue prevIndex).map (fun q => append q entries)

/-- Embeds `memoryLog.RangeGet` (`log.go`): entries in the interval `(i, j]`.
The Go code returns `nil` when `j ≤ i`; otherwise it decrements both bounds
as `uint64` and collects `queue[k]` for `k` from `i' + 1` while
`k ≤ j' ∧ k < len(queue)`.  For `i ≥ 1` this is positions `i .. j-1`
clipped to the queue; for `i = 0` the decrement wraps to `2^64 - 1` and the
loop start `i' + 1` wraps back to `0`, so the loop again runs over
positions `i .. j-1`.  In both cases the collected block is
`(queue.drop i).take (j - i)`. -/
def RangeGet (queue : List LogEntry) (i j : Nat) : List LogEntry :=
  if j ≤ i then [] else (queue.drop i).take (j - i)

/-- Well-formedness of a log queue suffix: the entries carry the
consecutive indices `n+1, n+2, …`.  `wf 0 queue` states that the queue
carries indices `1, 2, …, queue.length` with no gaps. -/
def wf : Nat → List LogEntry → Prop
  | _, [] => True
  | n, e :: rest => e.Index = n + 1 ∧ wf (n + 1) rest

instance instDecidableWf : (n : Nat) → (l : List LogEntry) → Decidable (wf n l)
  | _, [] => isTrue trivial
  | n, e :: rest =>
    have : Decidable (wf (n + 1) rest) := instDecidableWf (n + 1) rest
    decidable_of_iff (e.Index = n + 1 ∧ wf (n + 1) rest) Iff.rfl

/-- A mutation of the `memoryLog` queue through its public interface:
`Append` or `AppendAt` (`log.go`). -/
inductive LogOp where
  | append (es : List LogEntry)
  | appendAt (prev : Nat) (es : List LogEntry)
deriving DecidableEq

/-- Run one public mutation against the queue.  A failing `AppendAt`
returns its error before touching the queue, so the queue is kept. -/
def applyOp (queue : List LogEntry) : LogOp → List LogEntry
  | .append es => append queue es
  | .appendAt prev es => (AppendAt queue prev es).getD queue

/-- Run a sequence of public mutations against the initially empty
queue. -/
def runOps (ops : List LogOp) : List LogEntry :=
  ops.foldl applyOp []

/-- The behaviour the claim ascribes to `Match`, written from the spec's
words for comparison with the code: true iff index 0 with term 0, or an
entry with that index and term exists in the log. -/
def matchSpecClaim (queue : List LogEntry) (index term : Nat) : Prop :=
  (index = 0 ∧ term = 0) ∨ ∃ e ∈ queue, e.Index = index ∧ e.Term = term

instance (queue : List LogEntry) (index term : Nat) :
    Decidable (matchSpecClaim queue index term) :=
  inferInstanceAs (Decidable (_ ∨ _))

end memoryLog

namespace leader

/-- A raft log entry as seen by the Leader-side replication code
(`leader.go` revision): `Index`, `Term` and `Command`, all Go `int` fields
embedded as `Int` (`Command` as a string).  The `AppendTime` field is
informational only and omitted. -/
structure LogEntry where
  Index : Int
  Term : Int
  Command : String
deriving DecidableEq

/-- The Go zero value `LogEntry{}`: all fields zero / empty. -/
def zeroLogEntry : LogEntry := ⟨0, 0, ""⟩

/-- Modelled from the spec: the Log contract's `last()` — the index and
term of the final entry, `(0, 0)` when the log is empty.  The Leader's log
backend implementation is not among the given sources; only its interface
and the spec's contract are. -/
def last (log : List LogEntry) : Int × Int :=
  match log.getLast? with
  | none => (0, 0)
  | some e => (e.Index, e.Term)

/-- Modelled from the spec: the Log contract's `get(index)` — the entry
with the given index when present, the `LogEntryNotExists` sentinel
(`none`) otherwise.  The Leader's log backend implementation is not among
the given sources. -/
def get (log : List LogEntry) (i : Int) : Option LogEntry :=
  log.find? (fun e => e.Index == i)

/-- The entry construction performed by `leader.Commit` (`leader.go`):
`entries := make([]LogEntry, len(cmd))` allocates `len(cmd)` zero-valued
entries, and the loop then appends one further entry
`{Term: currentTerm, Command: cmd[i]}` per command, so the slice passed to
`Append` holds `2 * len(cmd)` entries. -/
def commitEntries (cmd : List String) (currentTerm : Int) : List LogEntry :=
  List.replicate cmd.length zeroLogEntry ++
    cmd.map (fun c => { Index := 0, Term := currentTerm, Command := c })

/-- The `success = true` branch of `leader.callAppendEntriesWithAll`
(`leader.go`): when `entries` is non-empty, `nextIndex` becomes the index
of its final entry plus one, otherwise `nextIndex` is left as it was;
`matchIndex` is stored as `prevLogIndex` in both cases.  The result is the
pair `(new nextIndex, new matchIndex)`. -/
def successUpdate (nextIndex prevLogIndex : Int) (entries : List LogEntry) :
    Int × Int :=
  match entries.getLast? with
  | some e => (e.Index + 1, prevLogIndex)
  | none => (nextIndex, prevLogIndex)

/-- The `success = false` branch of `leader.callAppendEntriesWithAll`
(`leader.go`): `nextIndex.Store(id, nextIndex - 1)` — a plain decrement,
with no lower bound. -/
def failNextIndex (nextIndex : Int) : Int :=
  nextIndex - 1

/-- The ascending sort performed by Go's `sort.Ints`.  On a list of
integers every correct sort produces the same list (the unique ascending
rearrangement), so insertion sort is an exact embedding. -/
def sortInts (l : List Int) : List Int :=
  l.insertionSort (· ≤ ·)

/-- The candidate commit index computed by `leader.calcCommitIndex`
(`leader.go`): append the leader's current `commitIndex` to the values
gathered from the `matchIndex` map, sort ascending with `sort.Ints`, and
read the element at position `len / 2`.  The list is never empty (the
`commitIndex` element is always present), so the Go indexing is in bounds
and the `getD` default is never used. -/
def calcN (values : List Int) (commitIndex : Int) : Int :=
  let matchIndex := sortInts (values ++ [commitIndex])
  matchIndex.getD (matchIndex.length / 2) 0

/-- Embeds `leader.calcCommitIndex` (`leader.go`) as a function from the log, the
current term, the current `commitIndex` and the gathered `matchIndex`
values to the new `commitIndex`: return unchanged when the last log term
differs from `currentTerm`; otherwise compute the candidate `N` and adopt
it only when `N > commitIndex` and the entry at `N` exists and carries
`currentTerm` (a missing entry makes the Go code return the
`LogEntryNotExists` error, leaving `commitIndex` unchanged). -/
def calcCommitIndex (log : List LogEntry) (currentTerm commitIndex : Int)
    (values : List Int) : Int :=
  if (last log).2 ≠ currentTerm then commitIndex
  else
    let nextCommitIndex := calcN values commitIndex
    if nextCommitIndex ≤ commitIndex then commitIndex
    else
      match get log nextCommitIndex with
      | none => commitIndex
      | some entry =>
        if entry.Term ≠ currentTerm then commitIndex else nextCommitIndex

/-- The original claim's candidate index, written from the spec's words for
comparison: gather the `matchIndex` values together with the leader's own
`log.last().index`, sort ascending, pick the median. -/
def specMedianN (values : List Int) (lastLogIndex : Int) : Int :=
  let pool := sortInts (values ++ [lastLogIndex])
  pool.getD (pool.length / 2) 0

end leader

namespace raft

/-- Raft node identifier (`RaftId` in `raft.go`): an opaque string; the
empty string is the nil id (`isNil`), used for an unset `votedFor`. -/
abbrev RaftId := String

/-- The consensus state consulted by `raft.go`: durable `currentTerm` and
`votedFor`.  Its implementation (`state`) is not among the given sources;
the fields are those of the spec's PersistentState. -/
structure state where
  currentTerm : Int
  votedFor : RaftId
deriving DecidableEq

/-- Modelled from the spec: the Store contract (§6) exposes
`setCurrentTerm` and `setVotedFor` as separate operations, so
`SetCurrentTerm` records the new term and touches nothing else.  The
`state` implementation is not among the given sources. -/
def SetCurrentTerm (s : state) (t : Int) : state :=
  { s with currentTerm := t }

/-- Embeds `raft.ToFollower` (`raft.go`): when a term is supplied (the Go variadic
`term ...int`, embedded as a list), store it with `SetCurrentTerm`; build
the follower.  The `votedFor` parameter is accepted but never used by the
body, and `votedFor` in the state is not written. -/
def ToFollower (s : state) (votedFor : RaftId) (term : List Int) : state :=
  match term with
  | t :: _ => SetCurrentTerm s t
  | [] => s

/-- Embeds `raft.reactToRPCArgs` (`raft.go`): when the RPC args carry a term
strictly greater than `currentTerm`, convert to follower via
`ToFollower(callerId, argsTerm)` and report the conversion; otherwise
report no conversion (`none`). -/
def reactToRPCArgs (s : state) (argsTerm : Int) (callerId : RaftId) :
    Option state :=
  if s.currentTerm < argsTerm then some (ToFollower s callerId [argsTerm])
  else none

/-- The per-peer volatile-state initialisation of `raft.ToLeader`
(`raft.go`): `nextIndex[p] = lastLogIndex + 1`, `matchIndex[p] = 0`. -/
def ToLeaderInit (lastLogIndex : Int) : Int × Int :=
  (lastLogIndex + 1, 0)

/-- Embeds `raft.syncLeaderCommit` (`raft.go`): given `leaderCommit`, the node's
`commitIndex` and the log's last index, return the new `commitIndex` and
whether the apply condition was signalled.  The Go code returns immediately
when `leaderCommit ≤ commitIndex`; otherwise it lowers `leaderCommit` to
`lastIndex` when the log is shorter, stores the result and signals. -/
def syncLeaderCommit (leaderCommit commitIndex lastIndex : Int) : Int × Bool :=
  if leaderCommit ≤ commitIndex then (commitIndex, false)
  else
    let c := leaderCommit
    let c := if lastIndex < c then lastIndex else c
    (c, true)

end raft

namespace memoryLog

theorem reassign_length (start : Nat) (es : List LogEntry) :
    (reassign start es).length = es.length := by
  induction es generalizing start with
  | nil => rfl
  | cons e rest ih => simp [reassign, ih]

theorem reassign_map_command (start : Nat) (es : List LogEntry) :
    (reassign start es).map LogEntry.Command = es.map LogEntry.Command := by
  induction es generalizing start with
  | nil => rfl
  | cons e rest ih => simp [reassign, ih]

theorem reassign_map_index (start : Nat) (es : List LogEntry) :
    (reassign start es).map LogEntry.Index = List.range' (start + 1) es.length := by
  induction es generalizing start with
  | nil => rfl
  | cons e rest ih => simp [reassign, ih, List.range'_succ]

theorem wf_reassign (start : Nat) (es : List LogEntry) :
    wf start (reassign start es) := by
  induction es generalizing start with
  | nil => trivial
  | cons e rest ih => exact ⟨rfl, ih (start + 1)⟩

theorem wf_append {n : Nat} {q r : List LogEntry} (hq : wf n q)
    (hr : wf (n + q.length) r) : wf n (q ++ r) := by
  induction q generalizing n with
  | nil => simpa using hr
  | cons e rest ih =>
    refine ⟨hq.1, ih hq.2 ?_⟩
    simpa [Nat.add_comm, Nat.add_assoc, Nat.add_left_comm] using hr

theorem wf_take {n : Nat} {q : List LogEntry} (h : wf n q) (k : Nat) :
    wf n (q.take k) := by
  induction q generalizing n k with
  | nil => simp [List.take_nil]; trivial
  | cons e rest ih =>
    cases k with
    | zero => trivial
    | succ k => exact ⟨h.1, ih h.2 k⟩

theorem wf_last_aux : ∀ (n : Nat) (q : List LogEntry), wf n q → q ≠ [] →
    (last q).1 = n + q.length
  | _, [], _, hne => absurd rfl hne
  | _, [e], h, _ => by simp [last, h.1]
  | n, e :: e2 :: rest2, h, _ => by
    have h2 := wf_last_aux (n + 1) (e2 :: rest2) h.2 (by simp)
    have hlast : last (e :: e2 :: rest2) = last (e2 :: rest2) := by
      simp [last, List.getLast?_cons_cons]
    rw [hlast, h2]
    simp [List.length]
    omega

/-- Under `wf 0`, the index of the last entry equals the queue length. -/
theorem wf_last {q : List LogEntry} (h : wf 0 q) : (last q).1 = q.length := by
  cases q with
  | nil => simp [last]
  | cons e rest =>
    simpa using wf_last_aux 0 (e :: rest) h (by simp)

/-- Appending to a well-formed queue keeps it well-formed. -/
theorem wf_append_entries {q : List LogEntry} (h : wf 0 q)
    (es : List LogEntry) : wf 0 (append q es) := by
  refine wf_append h ?_
  rw [wf_last h] at *
  simpa using wf_reassign q.length es

theorem wf_applyOp {q : List LogEntry} (h : wf 0 q) (op : LogOp) :
    wf 0 (applyOp q op) := by
  cases op with
  | append es => exact wf_append_entries h es
  | appendAt prev es =>
    show wf 0 ((AppendAt q prev es).getD q)
    unfold AppendAt popAfter
    by_cases h1 : prev = q.length
    · simpa [h1] using wf_append_entries h es
    · by_cases h2 : prev > q.length
      · simpa [h1, h2] using h
      · simpa [h1, h2] using wf_append_entries (wf_take h prev) es

theorem wf_foldl (ops : List LogOp) :
    ∀ q : List LogEntry, wf 0 q → wf 0 (List.foldl applyOp q ops) := by
  induction ops with
  | nil => intro q h; simpa using h
  | cons op rest ih =>
    intro q h
    exact ih (applyOp q op) (wf_applyOp h op)

end memoryLog

namespace leader

/-- In an ascending list, at least `i + 1` elements are at most the element
at position `i`. -/
theorem count_le_get (s : List Int) (hs : List.Sorted (· ≤ ·) s) :
    ∀ (i : Nat) (hi : i < s.length),
      i + 1 ≤ s.countP (fun x => decide (x ≤ s.get ⟨i, hi⟩)) := by
  induction s with
  | nil => intro i hi; simp at hi
  | cons e rest ih =>
    intro i hi
    cases i with
    | zero =>
      have : (e :: rest).get ⟨0, hi⟩ = e := rfl
      rw [this, List.countP_cons]
      simp
    | succ k =>
      have hk : k < rest.length := by simpa using hi
      have hN : (e :: rest).get ⟨k + 1, hi⟩ = rest.get ⟨k, hk⟩ := rfl
      have he : e ≤ rest.get ⟨k, hk⟩ :=
        List.rel_of_sorted_cons hs _ (List.get_mem rest k hk)
      have hrec := ih hs.of_cons k hk
      rw [hN, List.countP_cons, if_pos (by simpa using he)]
      omega

/-- In an ascending list, at least `length - i` elements are at least the
element at position `i`. -/
theorem count_ge_get (s : List Int) (hs : List.Sorted (· ≤ ·) s) :
    ∀ (i : Nat) (hi : i < s.length),
      s.length - i ≤ s.countP (fun x => decide (s.get ⟨i, hi⟩ ≤ x)) := by
  induction s with
  | nil => intro i hi; simp at hi
  | cons e rest ih =>
    intro i hi
    cases i with
    | zero =>
      have h0 : (e :: rest).get ⟨0, hi⟩ = e := rfl
      have hall : ∀ a ∈ e :: rest, decide (e ≤ a) = true := by
        intro a ha
        rcases List.mem_cons.mp ha with rfl | ha
        · simp
        · simpa using List.rel_of_sorted_cons hs _ ha
      rw [h0, List.countP_eq_length.mpr hall]
      omega
    | succ k =>
      have hk : k < rest.length := by simpa using hi
      have hN : (e :: rest).get ⟨k + 1, hi⟩ = rest.get ⟨k, hk⟩ := rfl
      have hrec := ih hs.of_cons k hk
      rw [hN, List.countP_cons]
      simp only [List.length_cons]
      omega

/-- The value read by `calcN` is the median of the pool it sorts: it is one
of the pooled values, at least half of the pool (rounded up) is at most it,
and at least half (rounded up) is at least it. -/
theorem calcN_median (values : List Int) (ci : Int) :
    calcN values ci ∈ values ++ [ci] ∧
    (values ++ [ci]).length - (values ++ [ci]).length / 2 ≤
      (values ++ [ci]).countP (fun x => decide (calcN values ci ≤ x)) ∧
    (values ++ [ci]).length / 2 + 1 ≤
      (values ++ [ci]).countP (fun x => decide (x ≤ calcN values ci)) := by
  have hperm := List.perm_insertionSort (· ≤ ·) (values ++ [ci])
  have hs := List.sorted_insertionSort (· ≤ ·) (values ++ [ci])
  have hlen : (List.insertionSort (· ≤ ·) (values ++ [ci])).length =
      (values ++ [ci]).length := hperm.length_eq
  have hpos : 0 < (List.insertionSort (· ≤ ·) (values ++ [ci])).length := by
    rw [hlen]; simp
  have hmid : (List.insertionSort (· ≤ ·) (values ++ [ci])).length / 2 <
      (List.insertionSort (· ≤ ·) (values ++ [ci])).length := by omega
  have hcalc : calcN values ci =
      (List.insertionSort (· ≤ ·) (values ++ [ci])).get
        ⟨(List.insertionSort (· ≤ ·) (values ++ [ci])).length / 2, hmid⟩ := by
    simp only [calcN, sortInts]
    rw [List.getD_eq_get?, List.get?_eq_get hmid]
    rfl
  refine ⟨?_, ?_, ?_⟩
  · rw [hcalc]
    exact hperm.mem_iff.mp (List.get_mem _ _ hmid)
  · rw [hcalc, ← hperm.countP_eq, ← hlen]
    exact count_ge_get _ hs _ hmid
  · rw [hcalc, ← hperm.countP_eq, ← hlen]
    have := count_le_get _ hs _ hmid
    omega

/-- Lemma: `calcCommitIndex` either keeps `commitIndex` or adopts exactly the
candidate `calcN`, and only when the candidate exceeds `commitIndex`. -/
theorem calcCommitIndex_cases (log : List LogEntry) (t ci : Int)
    (values : List Int) :
    calcCommitIndex log t ci values = ci ∨
      (ci < calcN values ci ∧
        calcCommitIndex log t ci values = calcN values ci) := by
  simp only [calcCommitIndex]
  split
  · exact Or.inl rfl
  · split
    · exact Or.inl rfl
    · next h2 =>
      split
      · exact Or.inl rfl
      · split
        · exact Or.inl rfl
        · exact Or.inr ⟨by omega, rfl⟩

end leader

/-- C1 counterexample: in a leader state with last log index 5 (all entries
of the current term 3), peer match indices {0, 2} and commitIndex 0, the
code's candidate index (`calcN`, which pools the match indices with
`commitIndex`) is 0 and `calcCommitIndex` leaves commitIndex at 0, while
the claimed candidate (pooling with `log.last().index`) is 2 — so the
claimed median is not the value the code compares against commitIndex. -/
theorem c1_counterexample :
    leader.calcN [0, 2] 0 = 0 ∧
    leader.specMedianN [0, 2]
      (leader.last
        [⟨1, 3, "a"⟩, ⟨2, 3, "b"⟩, ⟨3, 3, "c"⟩, ⟨4, 3, "d"⟩, ⟨5, 3, "e"⟩]).1 = 2 ∧
    (0 : Int) ≠ 2 ∧
    leader.calcCommitIndex
      [⟨1, 3, "a"⟩, ⟨2, 3, "b"⟩, ⟨3, 3, "c"⟩, ⟨4, 3, "d"⟩, ⟨5, 3, "e"⟩]
      3 0 [0, 2] = 0 := by
  refine ⟨by decide, by decide, by decide, by decide⟩

/-- C1 (amended): the candidate index N is obtained by pooling the
`matchIndex` map's values with the leader's current `commitIndex` (not its
last log index), sorting ascending and taking the element at position
`len / 2`: N is one of the pooled values, at least `len - len/2` of them
are ≥ N and at least `len/2 + 1` of them are ≤ N (N is the pool's upper
median); and in every call `calcCommitIndex` either leaves `commitIndex`
unchanged or adopts exactly this N, only when `N > commitIndex`. -/
theorem c1_median_of_pool (log : List leader.LogEntry) (t ci : Int)
    (values : List Int) :
    (leader.calcN values ci ∈ values ++ [ci] ∧
      (values ++ [ci]).length - (values ++ [ci]).length / 2 ≤
        (values ++ [ci]).countP (fun x => decide (leader.calcN values ci ≤ x)) ∧
      (values ++ [ci]).length / 2 + 1 ≤
        (values ++ [ci]).countP
          (fun x => decide (x ≤ leader.calcN values ci))) ∧
    (leader.calcCommitIndex log t ci values = ci ∨
      (ci < leader.calcN values ci ∧
        leader.calcCommitIndex log t ci values = leader.calcN values ci)) :=
  ⟨leader.calcN_median values ci, leader.calcCommitIndex_cases log t ci values⟩

/-- C2 counterexample: a node with currentTerm 1 and votedFor "A" receives
an RPC with term 2 from caller "B"; `reactToRPCArgs` converts to follower
with currentTerm 2, but votedFor remains "A" — it does not become unset. -/
theorem c2_counterexample :
    raft.reactToRPCArgs ⟨1, "A"⟩ 2 "B" = some ⟨2, "A"⟩ ∧
    ("A" : String) ≠ "" := by
  refine ⟨by decide, by decide⟩

/-- C2 (amended): on any RPC request or response carrying a term T
strictly greater than currentTerm, the node converts to Follower and sets
currentTerm = T, while votedFor is left unchanged (the `votedFor` argument
passed to `ToFollower` is ignored by its body); with T ≤ currentTerm no
conversion happens. -/
theorem c2_adopt_term_keeps_votedFor (s : raft.state) (T : Int)
    (caller : raft.RaftId) :
    (s.currentTerm < T →
      raft.reactToRPCArgs s T caller = some ⟨T, s.votedFor⟩) ∧
    (T ≤ s.currentTerm → raft.reactToRPCArgs s T caller = none) := by
  constructor
  · intro h
    simp [raft.reactToRPCArgs, raft.ToFollower, raft.SetCurrentTerm, h]
  · intro h
    simp [raft.reactToRPCArgs, not_lt.mpr h]

theorem c2_adopt_term_keeps_votedFor_witness :
    raft.reactToRPCArgs ⟨1, "A"⟩ 2 "B" = some ⟨2, "A"⟩ :=
  (c2_adopt_term_keeps_votedFor ⟨1, "A"⟩ 2 "B").1 (by decide)

/-- C3: at the failing input — a successful AppendEntries round with
`nextIndex = 1`, `prevLogIndex = 0` and one replicated entry of index 1 —
the success branch stores `nextIndex[p] = 2` but `matchIndex[p] = 0`
(`prevLogIndex`), whereas the claim (and the code's own §5.3 comment and
`matchIndex` field documentation) require
`matchIndex[p] = prevLogIndex + len(entries) = 1`. -/
theorem c3_matchIndex_stores_prevLogIndex :
    leader.successUpdate 1 0 [⟨1, 1, "x"⟩] = (2, 0) ∧
    (leader.successUpdate 1 0 [⟨1, 1, "x"⟩]).2 ≠ 0 + 1 := by
  refine ⟨by decide, by decide⟩

/-- C4: at the failing input — a single client command "x" handled at
currentTerm 3 — `leader.Commit` builds and appends two log entries, not
one: a zero-valued entry of term 0 followed by the intended entry of term
3, because `make([]LogEntry, len(cmd))` pre-fills the slice with zero
values before the loop appends to it. -/
theorem c4_commit_appends_zero_entries :
    (leader.commitEntries ["x"] 3).length = 2 ∧
    (leader.commitEntries ["x"] 3).map leader.LogEntry.Term = [0, 3] := by
  refine ⟨by decide, by decide⟩

/-- C5: `calcCommitIndex` never advances `commitIndex` to an index whose
entry's term differs from the leader's current term: when the last log
entry's term is not `currentTerm` the whole computation is skipped and
`commitIndex` is returned unchanged; and whenever the returned value
differs from `commitIndex`, it is strictly greater and the log entry at
that index exists and carries exactly `currentTerm`. -/
theorem c5_prior_term_guard (log : List leader.LogEntry) (t ci : Int)
    (values : List Int) :
    ((leader.last log).2 ≠ t → leader.calcCommitIndex log t ci values = ci) ∧
    (leader.calcCommitIndex log t ci values ≠ ci →
      ci < leader.calcCommitIndex log t ci values ∧
      (leader.get log (leader.calcCommitIndex log t ci values)).map
          leader.LogEntry.Term = some t) := by
  constructor
  · intro h
    simp [leader.calcCommitIndex, h]
  · intro hne
    rcases leader.calcCommitIndex_cases log t ci values with h | ⟨hlt, heq⟩
    · exact absurd h hne
    · refine ⟨heq ▸ hlt, ?_⟩
      revert hne
      simp only [leader.calcCommitIndex] at heq ⊢
      split
      · intro hne; exact absurd rfl hne
      · split
        · intro hne; exact absurd rfl hne
        · split
          · intro hne; exact absurd rfl hne
          · next entry hentry =>
            split
            · intro hne; exact absurd rfl hne
            · next h3 =>
              intro _
              rw [hentry]
              simp only [Option.map_some']
              rw [not_not] at h3
              rw [h3]

theorem c5_prior_term_guard_witness :
    (0 : Int) < leader.calcCommitIndex [⟨1, 2, "a"⟩] 2 0 [1, 1] ∧
    (leader.get [⟨1, 2, "a"⟩]
        (leader.calcCommitIndex [⟨1, 2, "a"⟩] 2 0 [1, 1])).map
      leader.LogEntry.Term = some 2 :=
  (c5_prior_term_guard [⟨1, 2, "a"⟩] 2 0 [1, 1]).2 (by decide)

/-- C6 counterexample: on the empty log, `Match(1, 0)` returns true — index
1 is non-zero and no entry exists there, yet the result is not false as the
claim states, because `Get` reports the sentinel term 0 for missing
entries and `Match` merely compares terms. -/
theorem c6_counterexample :
    memoryLog.Match [] 1 0 = true ∧ ¬ memoryLog.matchSpecClaim [] 1 0 := by
  refine ⟨by decide, by decide⟩

/-- C6 (amended): `match(i, t)` returns true iff either the log stores an
entry at position i (i ≠ 0) whose term is t, or t = 0 and the log has no
entry at position i (including i = 0); in particular `match(i, 0)` returns
true for every index with no entry. -/
theorem c6_match_iff (queue : List memoryLog.LogEntry) (index term : Nat) :
    memoryLog.Match queue index term = true ↔
      ((index ≠ 0 ∧ ∃ e, queue.get? (index - 1) = some e ∧ e.Term = term) ∨
        (term = 0 ∧ (index = 0 ∨ queue.get? (index - 1) = none))) := by
  unfold memoryLog.Match memoryLog.Get
  by_cases h0 : index = 0
  · simp [h0, beq_iff_eq]
  · cases hg : queue.get? (index - 1) with
    | none => simp [h0, hg, beq_iff_eq]
    | some e =>
      simp [h0, hg, beq_iff_eq]
      exact eq_comm

/-- C7 counterexample: a leader elected with an empty log initialises
`nextIndex[p]` to 1; a single `success = false` response then stores
`nextIndex[p] = 0`, which is below the floor of 1 asserted by the claim
(and makes `matchIndex[p] < nextIndex[p]` fail, since `matchIndex[p]`
is 0). -/
theorem c7_counterexample :
    raft.ToLeaderInit 0 = (1, 0) ∧
    leader.failNextIndex (raft.ToLeaderInit 0).1 = 0 ∧
    ¬ (1 ≤ leader.failNextIndex (raft.ToLeaderInit 0).1) := by
  refine ⟨by decide, by decide, by decide⟩

/-- C7 (amended): on a `success = false` response with equal or lower term
the leader stores `nextIndex[p] - 1` with no lower bound (so `nextIndex`
can reach 0); on conversion to Leader, `nextIndex[p] = lastLogIndex + 1 ≥ 1`
and `matchIndex[p] = 0 < nextIndex[p]` hold for every peer. -/
theorem c7_decrement_no_floor (nextIndex lastLogIndex : Int) :
    leader.failNextIndex nextIndex = nextIndex - 1 ∧
    (0 ≤ lastLogIndex →
      1 ≤ (raft.ToLeaderInit lastLogIndex).1 ∧
      (raft.ToLeaderInit lastLogIndex).2 < (raft.ToLeaderInit lastLogIndex).1) := by
  refine ⟨rfl, fun h => ⟨?_, ?_⟩⟩ <;> simp [raft.ToLeaderInit] <;> omega

theorem c7_decrement_no_floor_witness :
    leader.failNextIndex 5 = 5 - 1 ∧
    (1 ≤ (raft.ToLeaderInit 3).1 ∧
      (raft.ToLeaderInit 3).2 < (raft.ToLeaderInit 3).1) :=
  ⟨(c7_decrement_no_floor 5 3).1, (c7_decrement_no_floor 5 3).2 (by decide)⟩

/-- C8: when `leaderCommit` exceeds the node's `commitIndex`,
`syncLeaderCommit` stores `min(leaderCommit, lastIndex)` and signals the
apply condition; when `leaderCommit ≤ commitIndex` it returns with the
state unchanged and no signal; and (for the reachable states, where
`commitIndex ≤ lastIndex`) the stored value never decreases. -/
theorem c8_syncLeaderCommit (leaderCommit commitIndex lastIndex : Int)
    (h : commitIndex ≤ lastIndex) :
    (commitIndex < leaderCommit →
      raft.syncLeaderCommit leaderCommit commitIndex lastIndex =
        (min leaderCommit lastIndex, true)) ∧
    (leaderCommit ≤ commitIndex →
      raft.syncLeaderCommit leaderCommit commitIndex lastIndex =
        (commitIndex, false)) ∧
    commitIndex ≤ (raft.syncLeaderCommit leaderCommit commitIndex lastIndex).1 := by
  refine ⟨fun hlt => ?_, fun hle => ?_, ?_⟩
  · simp only [raft.syncLeaderCommit]
    rw [if_neg (by omega)]
    by_cases hcase : lastIndex < leaderCommit
    · rw [if_pos hcase, min_eq_right (by omega)]
    · rw [if_neg hcase, min_eq_left (by omega)]
  · simp [raft.syncLeaderCommit, hle]
  · simp only [raft.syncLeaderCommit]
    by_cases h1 : leaderCommit ≤ commitIndex
    · simp [h1]
    · rw [if_neg h1]
      by_cases hcase : lastIndex < leaderCommit
      · rw [if_pos hcase]
        simpa using h
      · rw [if_neg hcase]
        simp
        omega

theorem c8_syncLeaderCommit_witness :
    raft.syncLeaderCommit 5 2 3 = (min 5 3, true) ∧
    (2 : Int) ≤ (raft.syncLeaderCommit 5 2 3).1 :=
  ⟨(c8_syncLeaderCommit 5 2 3 (by decide)).1 (by decide),
    (c8_syncLeaderCommit 5 2 3 (by decide)).2.2⟩

/-- C9: on a well-formed log (contiguous indices 1..n, which every
reachable `memoryLog` queue has) whose last index is at least `prevIndex`,
`AppendAt prevIndex es` with non-empty `es` truncates to the first
`prevIndex` entries and appends `es` reindexed from `prevIndex + 1`, and
`RangeGet prevIndex (prevIndex + len es)` on the result returns exactly
those appended entries, with their commands in the caller's order; when
`prevIndex` exceeds the last index, `AppendAt` fails (returns the error,
leaving the queue unchanged). -/
theorem c9_appendAt_rangeGet (queue : List memoryLog.LogEntry) (prev : Nat)
    (es : List memoryLog.LogEntry) (hwf : memoryLog.wf 0 queue) :
    (prev ≤ (memoryLog.last queue).1 → es ≠ [] →
      memoryLog.AppendAt queue prev es =
        some (queue.take prev ++ memoryLog.reassign prev es) ∧
      memoryLog.RangeGet (queue.take prev ++ memoryLog.reassign prev es) prev
          (prev + es.length) = memoryLog.reassign prev es ∧
      (memoryLog.reassign prev es).map memoryLog.LogEntry.Command =
        es.map memoryLog.LogEntry.Command) ∧
    ((memoryLog.last queue).1 < prev → memoryLog.AppendAt queue prev es = none) := by
  have hlast := memoryLog.wf_last hwf
  constructor
  · intro hle hne
    have hlen : prev ≤ queue.length := by omega
    have hpop : memoryLog.popAfter queue prev = some (queue.take prev) := by
      unfold memoryLog.popAfter
      by_cases h1 : prev = queue.length
      · rw [if_pos h1, h1, List.take_length]
      · rw [if_neg h1, if_neg (by omega)]
    have htklen : (queue.take prev).length = prev := by
      rw [List.length_take]
      exact Nat.min_eq_left hlen
    have hstart : (memoryLog.last (queue.take prev)).1 = prev := by
      rw [memoryLog.wf_last (memoryLog.wf_take hwf prev), htklen]
    have happ : memoryLog.AppendAt queue prev es =
        some (queue.take prev ++ memoryLog.reassign prev es) := by
      unfold memoryLog.AppendAt
      rw [hpop]
      simp only [Option.map_some']
      unfold memoryLog.append
      rw [hstart]
    refine ⟨happ, ?_, memoryLog.reassign_map_command prev es⟩
    have hnelen : 0 < es.length := List.length_pos.mpr hne
    unfold memoryLog.RangeGet
    rw [if_neg (by omega)]
    have hdrop : (queue.take prev ++ memoryLog.reassign prev es).drop prev =
        memoryLog.reassign prev es := by
      have h := List.drop_left (queue.take prev) (memoryLog.reassign prev es)
      rw [htklen] at h
      exact h
    rw [hdrop]
    have hsub : prev + es.length - prev = es.length := by omega
    rw [hsub, ← memoryLog.reassign_length prev es, List.take_length]
  · intro hgt
    unfold memoryLog.AppendAt memoryLog.popAfter
    rw [if_neg (by omega), if_pos (by omega)]
    rfl

theorem c9_appendAt_rangeGet_witness :
    memoryLog.AppendAt [⟨1, 5, "a"⟩, ⟨2, 5, "b"⟩] 1 [⟨99, 7, "c"⟩] =
      some ([⟨1, 5, "a"⟩, ⟨2, 5, "b"⟩].take 1 ++ memoryLog.reassign 1 [⟨99, 7, "c"⟩]) ∧
    memoryLog.RangeGet
        ([⟨1, 5, "a"⟩, ⟨2, 5, "b"⟩].take 1 ++ memoryLog.reassign 1 [⟨99, 7, "c"⟩]) 1
        (1 + [(⟨99, 7, "c"⟩ : memoryLog.LogEntry)].length) =
      memoryLog.reassign 1 [⟨99, 7, "c"⟩] ∧
    (memoryLog.reassign 1 [⟨99, 7, "c"⟩]).map memoryLog.LogEntry.Command =
      [(⟨99, 7, "c"⟩ : memoryLog.LogEntry)].map memoryLog.LogEntry.Command :=
  (c9_appendAt_rangeGet [⟨1, 5, "a"⟩, ⟨2, 5, "b"⟩] 1 [⟨99, 7, "c"⟩]
    (by decide)).1 (by decide) (by decide)

/-- C10: the log's `Append`/`AppendAt` operations ignore the `Index` field
supplied by the caller — `reassign` produces the same result whatever
indices the input entries carry — and reassign indices contiguously from
the current last index plus one (`range' (start+1)`), so any sequence of
`Append`/`AppendAt` operations starting from the empty log yields a queue
carrying exactly the indices 1, 2, …, n with no gaps (`wf 0`). -/
theorem c10_indices_contiguous :
    (∀ ops : List memoryLog.LogOp, memoryLog.wf 0 (memoryLog.runOps ops)) ∧
    (∀ (start : Nat) (es : List memoryLog.LogEntry)
        (f : memoryLog.LogEntry → Nat),
      memoryLog.reassign start (es.map fun e => { e with Index := f e }) =
        memoryLog.reassign start es) ∧
    (∀ (start : Nat) (es : List memoryLog.LogEntry),
      (memoryLog.reassign start es).map memoryLog.LogEntry.Index =
        List.range' (start + 1) es.length) := by
  refine ⟨fun ops => memoryLog.wf_foldl ops [] trivial, ?_,
    memoryLog.reassign_map_index⟩
  intro start es f
  induction es generalizing start with
  | nil => rfl
  | cons e rest ih =>
    obtain ⟨i, t, c⟩ := e
    simp [memoryLog.reassign, ih]
